import Mathlib

/-!
Verification of the client-side Simon game engine (simon-game-app).

Shallow embedding of:
  * the sequence-reveal scheduler of
    `src/frontend/src/components/game/CircularSimonBoard.tsx` (the
    `useEffect` animating `isShowingSequence`, with its `isCancelled`
    flag and `setTimeout` chain),
  * the socket event handlers of the waiting-room page
    (`room_state_update`, `countdown`, `player_left`),
  * the color-click guard `handleColorClick` of the board,
  * the game-over presentation math of `GameOverScreen.tsx`,
  * the game-code normalisation of `EntryPage.tsx`,
  * and (modelled from the spec, since `simonStore.ts` is not part of
    the sources) the input-collector store.
-/

-- =========================================================================
-- Shared data model
-- =========================================================================

/-- The four Simon colors (shared `Color` type of the frontend). -/
inductive Color
  | red
  | green
  | blue
  | yellow
deriving DecidableEq, Repr

-- =========================================================================
-- Waiting-room page state and socket handlers (src/unnamed/part_000)
-- =========================================================================

/-- Room lifecycle phase as held by the waiting-room page
(`useState<'waiting' | 'countdown' | 'active'>`). -/
inductive RoomStatus
  | waiting
  | countdown
  | active
deriving DecidableEq, Repr

/-- A roster entry as consumed by the page (fields actually read:
`id`, `displayName`, `avatarId`, `isHost`). -/
structure Player where
  id : String
  displayName : String
  avatarId : String
  isHost : Bool
deriving DecidableEq, Repr

/-- Payload of a `room_state` / `room_state_update` event: a full room
snapshot.  `players` is `Option` because the handler defends with
`room.players || []`. -/
structure RoomSnapshot where
  players : Option (List Player)
  status : RoomStatus
deriving DecidableEq, Repr

/-- The component state of the waiting-room page that the socket handlers
mutate, together with a trace of `soundService.playCountdown` calls
(the audio sink is an effect sink; we record its invocations). -/
structure WState where
  roomStatus : RoomStatus
  countdownValue : Option Nat
  isHost : Bool
  players : List Player
  lastCountdownValue : Option Nat
  sounds : List Nat
deriving DecidableEq, Repr

/-- Initial component state: `useState('waiting')`, `useState(null)`,
`useState(session?.isHost || false)` (taken as `false` here),
`useState([])`, `useRef(null)`. -/
def initWState : WState :=
  { roomStatus := RoomStatus.waiting
    countdownValue := none
    isHost := false
    players := []
    lastCountdownValue := none
    sounds := [] }

/-- The `room_state_update` handler: replaces the roster wholesale
(`setPlayers(room.players || [])`), sets the phase verbatim
(`setRoomStatus(room.status)`), and recomputes the host flag from the
fresh roster (`room.players?.find(p => p.id === playerId)?.isHost || false`). -/
def handleRoomStateUpdate (playerId : String) (s : WState) (room : RoomSnapshot) : WState :=
  { s with
    players := room.players.getD []
    roomStatus := room.status
    isHost := (((room.players.getD []).find? (fun p => p.id == playerId)).map
      (fun p => p.isHost)).getD false }

/-- The `countdown` handler: sets phase to `countdown`, stores the value,
plays the countdown beep only when the value differs from
`lastCountdownValue.current`, and on `count == 0` moves to `active`,
clears the countdown display and resets the dedupe memory to `null`. -/
def handleCountdown (s : WState) (count : Nat) : WState :=
  let s1 := { s with roomStatus := RoomStatus.countdown, countdownValue := some count }
  let s2 :=
    if s1.lastCountdownValue = some count then s1
    else { s1 with sounds := s1.sounds ++ [count], lastCountdownValue := some count }
  if count = 0 then
    { s2 with
      roomStatus := RoomStatus.active
      countdownValue := none
      lastCountdownValue := none }
  else s2

/-- The `player_left` handler:
`setPlayers(prev => prev.filter(p => p.id !== data.playerId))`. -/
def handlePlayerLeft (s : WState) (playerId : String) : WState :=
  { s with players := s.players.filter (fun p => p.id != playerId) }

-- =========================================================================
-- Board click guard (CircularSimonBoard.handleColorClick)
-- =========================================================================

/-- The board props that `handleColorClick` consults. -/
structure BoardCtx where
  disabled : Bool
  isShowingSequence : Bool
  isInputPhase : Bool
deriving DecidableEq, Repr

/-- The side effects `handleColorClick` can perform, in order. -/
inductive BoardEffect
  | playColorClick (c : Color)
  | vibrate (ms : Nat)
  | setActive (c : Option Color)
  | scheduleClearActive (ms : Nat)
  | onColorClick (c : Color)
deriving DecidableEq, Repr

/-- `handleColorClick`: returns early (no effect at all) when
`disabled || isShowingSequence || !isInputPhase`; otherwise plays the
click tone, vibrates 50 ms, lights the wedge, schedules its clearing
after 150 ms and forwards the color to the collector (`onColorClick`). -/
def handleColorClick (ctx : BoardCtx) (c : Color) : List BoardEffect :=
  if ctx.disabled || ctx.isShowingSequence || !ctx.isInputPhase then []
  else
    [BoardEffect.playColorClick c, BoardEffect.vibrate 50,
     BoardEffect.setActive (some c), BoardEffect.scheduleClearActive 150,
     BoardEffect.onColorClick c]

-- =========================================================================
-- Input-collector store (simonStore), modelled from the spec
-- =========================================================================

/-- Events driving the input-collector store. -/
inductive StoreEvent
  | roundStart (seq : List Color)
  | revealDone
  | colorClick (c : Color)
  | submit
  | eliminate
deriving DecidableEq, Repr

/-- Modelled from the spec: the round state held by the Simon store
(`simonStore.ts` is not among the sources; only its consumers are).
Spec §3 RoundState and §4.3 Input Collector: target sequence,
player's in-progress sequence, reveal / input-phase flags, local
elimination flag, per-round submit readiness, and the outbound
submission events already emitted. -/
structure StoreState where
  sequence : List Color
  playerSequence : List Color
  isShowingSequence : Bool
  isInputPhase : Bool
  isEliminated : Bool
  canSubmit : Bool
  hasSubmitted : Bool
  emitted : List (List Color)
deriving DecidableEq, Repr

/-- Modelled from the spec: initial store state (empty round, nothing
revealed, nothing submitted). -/
def initStore : StoreState :=
  { sequence := []
    playerSequence := []
    isShowingSequence := false
    isInputPhase := false
    isEliminated := false
    canSubmit := false
    hasSubmitted := false
    emitted := [] }

/-- Modelled from the spec: the store transition function.
§4.2/§4.3: a new round captures the server sequence, clears the local
sequence and readiness, and starts the reveal; reveal completion opens
the input phase; a color click is accepted only when the reveal is not
in progress, the input phase flag is set and the player is not
eliminated (and, per the §3 invariant that the accumulated length never
exceeds the target length, only while the local sequence is still
shorter than the target), appending the color and recomputing
submit-readiness as equality of lengths; submission is gated on
readiness and emits exactly one outbound event per round; everything
else is a silent no-op. -/
def storeStep (st : StoreState) (ev : StoreEvent) : StoreState :=
  match ev with
  | StoreEvent.roundStart seq =>
      { st with
        sequence := seq
        playerSequence := []
        isShowingSequence := true
        isInputPhase := false
        canSubmit := false
        hasSubmitted := false }
  | StoreEvent.revealDone =>
      { st with isShowingSequence := false, isInputPhase := true }
  | StoreEvent.colorClick c =>
      if !st.isShowingSequence && st.isInputPhase && !st.isEliminated
          && st.playerSequence.length < st.sequence.length then
        { st with
          playerSequence := st.playerSequence ++ [c]
          canSubmit := decide ((st.playerSequence ++ [c]).length = st.sequence.length) }
      else st
  | StoreEvent.submit =>
      if st.canSubmit && !st.hasSubmitted then
        { st with emitted := st.emitted ++ [st.playerSequence], hasSubmitted := true }
      else st
  | StoreEvent.eliminate =>
      { st with isEliminated := true }

/-- Modelled from the spec: the store state after a list of events. -/
def runStore (evts : List StoreEvent) : StoreState :=
  evts.foldl storeStep initStore

-- =========================================================================
-- Game-over presentation (GameOverScreen.tsx)
-- =========================================================================

/-- One entry of the `finalScores` payload. -/
structure ScoreEntry where
  playerId : String
  name : String
  score : Int
  isEliminated : Bool
deriving DecidableEq, Repr

/-- The `winner` record of the game-over payload. -/
structure Winner where
  playerId : String
  name : String
  score : Int
deriving DecidableEq, Repr

/-- `getMedal`: medals for ranks 1-3, otherwise the string `#N`. -/
def getMedal (rank : Nat) : String :=
  match rank with
  | 1 => "🥇"
  | 2 => "🥈"
  | 3 => "🥉"
  | r => "#" ++ toString r

/-- JS `Array.prototype.findIndex`: index of the first element satisfying
the predicate (`-1`, here `none`, when there is none). -/
def jsFindIndex {α : Type} (p : α → Bool) : List α → Option Nat
  | [] => none
  | x :: xs => if p x then some 0 else (jsFindIndex p xs).map (fun i => i + 1)

/-- The local player's 1-based rank:
`finalScores.findIndex(s => s.playerId === currentPlayerId) + 1`
(JS `findIndex` yields `-1` when absent, hence rank `0`; here `none`
maps to `0`). -/
def rankOf (scores : List ScoreEntry) (pid : String) : Nat :=
  match jsFindIndex (fun e => e.playerId == pid) scores with
  | some i => i + 1
  | none => 0

/-- `isWinner`: `winner?.playerId === currentPlayerId` (a `null` winner
compares unequal). -/
def isWinnerOf (winner : Option Winner) (pid : String) : Bool :=
  match winner with
  | some w => w.playerId == pid
  | none => false

/-- `isSoloGame`: `finalScores.length === 1`. -/
def isSoloOf (scores : List ScoreEntry) : Bool :=
  scores.length == 1

-- =========================================================================
-- Entry page game-code normalisation (EntryPage.tsx)
-- =========================================================================

/-- The entry page's mode state. -/
inductive EntryMode
  | menu
  | solo
  | multiplayer
  | create
  | join
deriving DecidableEq, Repr

/-- The two ways the game-code form state is written: the input's
`onChange` (with the raw field value), and the `?join=` invite-link
query parameter.  JS strings are modelled as lists of characters and
`String.prototype.toUpperCase` as per-character `Char.toUpper`. -/
inductive EntryEv
  | typeCode (raw : List Char)
  | inviteParam (code : List Char)
deriving DecidableEq, Repr

/-- The entry-page state the claim concerns. -/
structure EntryState where
  mode : EntryMode
  gameCode : List Char
deriving DecidableEq, Repr

/-- Initial entry-page state: `useState<Mode>('menu')`, `useState('')`. -/
def initEntry : EntryState :=
  { mode := EntryMode.menu, gameCode := [] }

/-- The two writes to the game-code state:
`onChange={(e) => setGameCode(e.target.value.toUpperCase())}` and the
invite-link effect `setMode('join'); setGameCode(joinCode.toUpperCase())`. -/
def entryStep (st : EntryState) (ev : EntryEv) : EntryState :=
  match ev with
  | EntryEv.typeCode raw => { st with gameCode := raw.map Char.toUpper }
  | EntryEv.inviteParam code =>
      { st with mode := EntryMode.join, gameCode := code.map Char.toUpper }

/-- Entry-page state after a list of code-writing events. -/
def runEntry (evts : List EntryEv) : EntryState :=
  evts.foldl entryStep initEntry

/-- The code the `joinGame` request carries: `handleJoinGame` passes the
current `gameCode` state to `joinGame(displayName, avatarId, gameCode)`. -/
def joinRequestCode (st : EntryState) : List Char :=
  st.gameCode

-- =========================================================================
-- Theorems: waiting-room handlers (C3, C5, C8)
-- =========================================================================

/-- After the first delivery of a countdown value the dedupe memory holds
that value (for a non-zero count). -/
theorem handleCountdown_last (s : WState) (V : Nat) (hV : V ≠ 0) :
    (handleCountdown s V).lastCountdownValue = some V := by
  unfold handleCountdown
  by_cases h : s.lastCountdownValue = some V <;> simp [h, hV]

/-- The sounds emitted by one countdown delivery (non-zero count). -/
theorem handleCountdown_sounds (s : WState) (V : Nat) (hV : V ≠ 0) :
    (handleCountdown s V).sounds =
      (if s.lastCountdownValue = some V then s.sounds else s.sounds ++ [V]) := by
  unfold handleCountdown
  by_cases h : s.lastCountdownValue = some V <;> simp [h, hV]

/-- C3 (corrected): for every non-zero countdown value V, consecutive
redelivery of the event with count V triggers the countdown audio cue
exactly once: the first delivery plays the cue iff V differs from the
last-seen value, and a second consecutive delivery adds no cue, because
the dedupe memory then holds V.  (For V = 0 the handler resets the
dedupe memory, so this fails; see the counterexample.) -/
theorem countdown_dedupe_nonzero (s : WState) (V : Nat) (hV : V ≠ 0) :
    ((handleCountdown s V).sounds =
      (if s.lastCountdownValue = some V then s.sounds else s.sounds ++ [V])) ∧
    (handleCountdown (handleCountdown s V) V).sounds = (handleCountdown s V).sounds := by
  refine ⟨handleCountdown_sounds s V hV, ?_⟩
  rw [handleCountdown_sounds _ V hV, handleCountdown_last s V hV]
  simp

/-- Witness for C3: the dedupe theorem at a concrete state and value. -/
theorem countdown_dedupe_nonzero_witness :
    (handleCountdown (handleCountdown initWState 3) 3).sounds =
      (handleCountdown initWState 3).sounds :=
  (countdown_dedupe_nonzero initWState 3 (by decide)).2

/-- C3 counterexample: for V = 0 the claim fails — the handler clears the
dedupe memory on count 0, so a consecutively redelivered zero plays the
countdown cue a second time. -/
theorem countdown_redeliver_zero_plays_twice :
    ¬ ((handleCountdown (handleCountdown initWState 0) 0).sounds =
        (handleCountdown initWState 0).sounds) := by
  decide

/-- C5: after any non-empty sequence of `room_state_update` events, the
roster equals the player list of the final snapshot exactly (a missing
list treated as empty) and the phase equals that snapshot's status. -/
theorem roster_is_last_snapshot (pid : String) (s : WState) (snaps : List RoomSnapshot)
    (h : snaps ≠ []) :
    (snaps.foldl (handleRoomStateUpdate pid) s).players =
      ((snaps.getLast h).players).getD [] ∧
    (snaps.foldl (handleRoomStateUpdate pid) s).roomStatus = (snaps.getLast h).status := by
  induction snaps generalizing s with
  | nil => exact absurd rfl h
  | cons x xs ih =>
      cases xs with
      | nil => simp [handleRoomStateUpdate]
      | cons y ys =>
          rw [List.foldl_cons, List.getLast_cons (by simp : y :: ys ≠ [])]
          exact ih (handleRoomStateUpdate pid s x) (by simp)

/-- Witness for C5: two snapshots; only the second one survives. -/
theorem roster_is_last_snapshot_witness :
    (([⟨some [⟨"p1", "Ann", "1", true⟩], RoomStatus.waiting⟩,
       ⟨some [⟨"p2", "Bob", "2", false⟩], RoomStatus.active⟩] :
        List RoomSnapshot).foldl (handleRoomStateUpdate "p2") initWState).players =
      [⟨"p2", "Bob", "2", false⟩] :=
  (roster_is_last_snapshot "p2" initWState _ (by simp)).1

/-- C8: `player_left` removes exactly the roster entries with the given
id (keeping all others, in order, unchanged) and leaves the phase, the
countdown value and the local host flag untouched. -/
theorem player_left_removes_only_that_id (s : WState) (pid : String) :
    (∀ p, p ∈ (handlePlayerLeft s pid).players ↔ (p ∈ s.players ∧ p.id ≠ pid)) ∧
    (handlePlayerLeft s pid).players.Sublist s.players ∧
    (handlePlayerLeft s pid).roomStatus = s.roomStatus ∧
    (handlePlayerLeft s pid).countdownValue = s.countdownValue ∧
    (handlePlayerLeft s pid).isHost = s.isHost := by
  refine ⟨?_, ?_, rfl, rfl, rfl⟩
  · intro p
    simp [handlePlayerLeft, List.mem_filter]
  · exact List.filter_sublist _

-- =========================================================================
-- Theorems: board click guard (C6)
-- =========================================================================

/-- C6: a color click either performs the full accept effect list (click
tone, 50 ms haptic, light the wedge, schedule its clearing, forward the
color to the collector) or nothing at all, and the accept happens
exactly when the reveal is not in progress, the input-phase flag is set
and the board is not disabled; in every other state the click is a
silent no-op with no effect whatsoever. -/
theorem color_click_guard (ctx : BoardCtx) (c : Color) :
    (handleColorClick ctx c = [] ∨
      handleColorClick ctx c =
        [BoardEffect.playColorClick c, BoardEffect.vibrate 50,
         BoardEffect.setActive (some c), BoardEffect.scheduleClearActive 150,
         BoardEffect.onColorClick c]) ∧
    (handleColorClick ctx c ≠ [] ↔
      (ctx.disabled = false ∧ ctx.isShowingSequence = false ∧ ctx.isInputPhase = true)) := by
  rcases ctx with ⟨d, sh, ip⟩
  cases d <;> cases sh <;> cases ip <;> simp [handleColorClick]

-- =========================================================================
-- Theorems: input-collector store (C4)
-- =========================================================================

/-- Modelled from the spec: the Input Collector invariant (§3): the
accumulated sequence never outgrows the target, and during a round
(non-empty target) submit-readiness is equivalent to length equality. -/
def StoreInv (st : StoreState) : Prop :=
  st.playerSequence.length ≤ st.sequence.length ∧
  (st.sequence ≠ [] →
    (st.canSubmit = true ↔ st.playerSequence.length = st.sequence.length))

/-- The store invariant is preserved by every event. -/
theorem storeStep_inv (st : StoreState) (ev : StoreEvent) (h : StoreInv st) :
    StoreInv (storeStep st ev) := by
  obtain ⟨h1, h2⟩ := h
  cases ev with
  | roundStart seq =>
      refine ⟨by simp [storeStep], ?_⟩
      intro hne
      simp [storeStep]
      exact fun hl => hne (List.length_eq_zero.mp hl.symm)
  | revealDone => exact ⟨h1, h2⟩
  | colorClick c =>
      by_cases hg : (!st.isShowingSequence && st.isInputPhase && !st.isEliminated
          && decide (st.playerSequence.length < st.sequence.length)) = true
      · have hlt : st.playerSequence.length < st.sequence.length := by
          simpa using (Bool.and_eq_true _ _ |>.mp hg).2
        constructor
        · simpa [storeStep, hg] using hlt
        · intro _
          simp [storeStep, hg]
      · simpa [storeStep, hg] using ⟨h1, h2⟩
  | submit =>
      by_cases hg : (st.canSubmit && !st.hasSubmitted) = true
      · simpa [storeStep, hg] using ⟨h1, h2⟩
      · simpa [storeStep, hg] using ⟨h1, h2⟩
  | eliminate => exact ⟨h1, h2⟩

/-- The store invariant holds after any event list. -/
theorem runStore_inv (evts : List StoreEvent) : StoreInv (runStore evts) := by
  have base : StoreInv initStore := by
    constructor
    · simp [initStore]
    · intro hne
      simp [initStore] at hne
  have step : ∀ (l : List StoreEvent) (st : StoreState),
      StoreInv st → StoreInv (l.foldl storeStep st) := by
    intro l
    induction l with
    | nil => intro st h; exact h
    | cons e rest ih =>
        intro st h
        exact ih (storeStep st e) (storeStep_inv st e h)
  exact step evts initStore base

/-- Submitting while not submit-ready is a complete no-op: the state is
unchanged, hence in particular no outbound submission event is appended. -/
theorem submit_not_ready_noop (st : StoreState) (h : st.canSubmit = false) :
    storeStep st StoreEvent.submit = st := by
  simp [storeStep, h]

/-- C4: in every state reachable by the input-collector store, the
player's accumulated sequence is never longer than the target sequence;
during a round (non-empty target) submit-readiness holds iff the two
lengths are equal; and a submit attempt while not ready leaves the
state — including the list of emitted submission events — unchanged. -/
theorem store_submit_invariants (evts : List StoreEvent) :
    (runStore evts).playerSequence.length ≤ (runStore evts).sequence.length ∧
    ((runStore evts).sequence ≠ [] →
      ((runStore evts).canSubmit = true ↔
        (runStore evts).playerSequence.length = (runStore evts).sequence.length)) ∧
    ((runStore evts).canSubmit = false →
      storeStep (runStore evts) StoreEvent.submit = runStore evts) := by
  obtain ⟨h1, h2⟩ := runStore_inv evts
  exact ⟨h1, h2, fun h => submit_not_ready_noop _ h⟩

/-- Witness for C4: a round of length two with one color entered — the
invariants hold, readiness is false, and submit is a no-op there. -/
theorem store_submit_invariants_witness :
    ((runStore [StoreEvent.roundStart [Color.red, Color.blue], StoreEvent.revealDone,
        StoreEvent.colorClick Color.red]).playerSequence.length ≤
      (runStore [StoreEvent.roundStart [Color.red, Color.blue], StoreEvent.revealDone,
        StoreEvent.colorClick Color.red]).sequence.length) ∧
    ((runStore [StoreEvent.roundStart [Color.red, Color.blue], StoreEvent.revealDone,
        StoreEvent.colorClick Color.red]).canSubmit = true ↔
      (runStore [StoreEvent.roundStart [Color.red, Color.blue], StoreEvent.revealDone,
        StoreEvent.colorClick Color.red]).playerSequence.length =
      (runStore [StoreEvent.roundStart [Color.red, Color.blue], StoreEvent.revealDone,
        StoreEvent.colorClick Color.red]).sequence.length) ∧
    storeStep (runStore [StoreEvent.roundStart [Color.red, Color.blue], StoreEvent.revealDone,
        StoreEvent.colorClick Color.red]) StoreEvent.submit =
      runStore [StoreEvent.roundStart [Color.red, Color.blue], StoreEvent.revealDone,
        StoreEvent.colorClick Color.red] := by
  refine ⟨(store_submit_invariants _).1, (store_submit_invariants _).2.1 (by decide),
    (store_submit_invariants _).2.2 (by decide)⟩

-- =========================================================================
-- Theorems: game-over presentation (C7)
-- =========================================================================

/-- `jsFindIndex` finds exactly the position of the first match. -/
theorem jsFindIndex_first {α : Type} (p : α → Bool) (l : List α) (i : Nat) (x : α)
    (h2 : l.get? i = some x) (hx : p x = true)
    (h1 : ∀ j y, j < i → l.get? j = some y → p y = false) :
    jsFindIndex p l = some i := by
  induction l generalizing i with
  | nil => simp at h2
  | cons z zs ih =>
      cases i with
      | zero =>
          simp at h2
          subst h2
          simp [jsFindIndex, hx]
      | succ i' =>
          have hz : p z = false := h1 0 z (Nat.succ_pos i') (by simp)
          have h2' : zs.get? i' = some x := by simpa using h2
          have h1' : ∀ j y, j < i' → zs.get? j = some y → p y = false := by
            intro j y hj hy
            exact h1 (j + 1) y (Nat.succ_lt_succ hj) (by simpa using hy)
          simp [jsFindIndex, hz, ih i' h2' h1']

/-- C7: the Session Summary Builder is a pure function of the game-over
payload: a player's rank is its 1-based position in `finalScores`
exactly as provided; the medals for ranks 1, 2, 3 are the gold, silver
and bronze emoji and `#N` for every rank N ≥ 4; `isWinner` holds iff
the winner's id equals the local player id (false for a null winner);
`isSolo` holds iff there is exactly one score entry; and on the
scenario `[{A,30},{B,20}]` with winner `{A,30}` the local player A gets
rank 1, the gold medal, `isWinner` true and `isSolo` false. -/
theorem game_over_summary :
    (∀ (scores : List ScoreEntry) (pid : String) (i : Nat) (e : ScoreEntry),
      (∀ j ej, j < i → scores.get? j = some ej → ej.playerId ≠ pid) →
      scores.get? i = some e → e.playerId = pid → rankOf scores pid = i + 1) ∧
    getMedal 1 = "🥇" ∧ getMedal 2 = "🥈" ∧ getMedal 3 = "🥉" ∧
    (∀ n, 4 ≤ n → getMedal n = "#" ++ toString n) ∧
    (∀ (w : Winner) (pid : String), isWinnerOf (some w) pid = true ↔ w.playerId = pid) ∧
    (∀ pid : String, isWinnerOf none pid = false) ∧
    (∀ scores : List ScoreEntry, isSoloOf scores = true ↔ scores.length = 1) ∧
    rankOf [⟨"A", "Alice", 30, false⟩, ⟨"B", "Bob", 20, false⟩] "A" = 1 ∧
    getMedal (rankOf [⟨"A", "Alice", 30, false⟩, ⟨"B", "Bob", 20, false⟩] "A") = "🥇" ∧
    isWinnerOf (some ⟨"A", "Alice", 30⟩) "A" = true ∧
    isSoloOf [⟨"A", "Alice", 30, false⟩, ⟨"B", "Bob", 20, false⟩] = false := by
  refine ⟨?_, rfl, rfl, rfl, ?_, ?_, ?_, ?_, by decide, by decide, by decide, by decide⟩
  · intro scores pid i e h1 h2 he
    have hfirst : ∀ j y, j < i → scores.get? j = some y →
        (fun e : ScoreEntry => e.playerId == pid) y = false := by
      intro j y hj hy
      simpa using h1 j y hj hy
    have := jsFindIndex_first (fun e : ScoreEntry => e.playerId == pid) scores i e h2
      (by simpa using he) hfirst
    simp [rankOf, this]
  · intro n hn
    obtain ⟨m, rfl⟩ : ∃ m, n = m + 4 := ⟨n - 4, by omega⟩
    rfl
  · intro w pid
    simp [isWinnerOf]
  · intro pid
    rfl
  · intro scores
    simp [isSoloOf]

/-- Witness for C7: rank computed from the first-occurrence
characterisation and the generic medal fallback at rank 7. -/
theorem game_over_summary_witness :
    rankOf [⟨"A", "Alice", 30, false⟩, ⟨"B", "Bob", 20, false⟩] "B" = 1 + 1 ∧
    getMedal 7 = "#" ++ toString 7 := by
  refine ⟨game_over_summary.1 _ "B" 1 ⟨"B", "Bob", 20, false⟩ ?_ (by rfl) (by rfl),
    game_over_summary.2.2.2.2.1 7 (by decide)⟩
  intro j ej hj hy
  interval_cases j
  simp at hy
  subst hy
  decide

-- =========================================================================
-- Theorems: entry-page game code (C10)
-- =========================================================================

/-- Either the code state is untouched by the events, or it is the
uppercase image of one of the written sources. -/
theorem entry_code_cases (evts : List EntryEv) :
    ∀ st : EntryState, (evts.foldl entryStep st).gameCode = st.gameCode ∨
      ∃ src, (EntryEv.typeCode src ∈ evts ∨ EntryEv.inviteParam src ∈ evts) ∧
        (evts.foldl entryStep st).gameCode = src.map Char.toUpper := by
  induction evts with
  | nil => intro st; exact Or.inl rfl
  | cons e rest ih =>
      intro st
      rcases ih (entryStep st e) with h | ⟨src, hmem, heq⟩
      · rw [List.foldl_cons]
        cases e with
        | typeCode raw =>
            refine Or.inr ⟨raw, Or.inl (by simp), ?_⟩
            rw [h]
            rfl
        | inviteParam code =>
            refine Or.inr ⟨code, Or.inr (by simp), ?_⟩
            rw [h]
            rfl
      · refine Or.inr ⟨src, ?_, by rw [List.foldl_cons]; exact heq⟩
        rcases hmem with hm | hm
        · exact Or.inl (List.mem_cons_of_mem _ hm)
        · exact Or.inr (List.mem_cons_of_mem _ hm)

/-- C10: every write to the game-code form state passes through
uppercasing — the `onChange` handler maps the field value through
`toUpperCase()` and the `?join=` invite parameter is uppercased before
being stored (switching the form to join mode) — and therefore the code
the `joinGame` request carries is always the uppercase image of what
the user typed or the invite link contained (or the initial empty
string). -/
theorem join_code_uppercase (evts : List EntryEv) (st : EntryState) (raw code : List Char) :
    (entryStep st (EntryEv.typeCode raw)).gameCode = raw.map Char.toUpper ∧
    (entryStep st (EntryEv.inviteParam code)).gameCode = code.map Char.toUpper ∧
    (entryStep st (EntryEv.inviteParam code)).mode = EntryMode.join ∧
    ∃ src, joinRequestCode (runEntry evts) = src.map Char.toUpper ∧
      (src = [] ∨ EntryEv.typeCode src ∈ evts ∨ EntryEv.inviteParam src ∈ evts) := by
  refine ⟨rfl, rfl, rfl, ?_⟩
  rcases entry_code_cases evts initEntry with h | ⟨src, hmem, heq⟩
  · exact ⟨[], by simpa [joinRequestCode, runEntry, initEntry] using h, Or.inl rfl⟩
  · refine ⟨src, by simpa [joinRequestCode, runEntry] using heq, ?_⟩
    rcases hmem with hm | hm
    · exact Or.inr (Or.inl hm)
    · exact Or.inr (Or.inr hm)

-- =========================================================================
-- Sequence-reveal scheduler (the isShowingSequence useEffect of
-- CircularSimonBoard.tsx)
-- =========================================================================

/-- Cues sent to the audio/haptic sinks by the reveal effect:
`soundService.playColor(color, SHOW_DURATION / 1000)` and
`navigator.vibrate(100)`. -/
inductive Cue
  | playColor (c : Color)
  | vibrate (ms : Nat)
deriving DecidableEq, Repr

/-- A recorded cue: the time it fires, the effect run it belongs to, and
the cue itself. -/
structure CueEvent where
  time : Nat
  run : Nat
  cue : Cue
deriving DecidableEq, Repr

/-- The two timer callbacks of one effect run: `showNextColor` (the
callback stored in `timeoutId`) and the anonymous hide callback
scheduled inside it for `SHOW_DURATION` later. -/
inductive Callback
  | showNext
  | hideStep
deriving DecidableEq, Repr

/-- A pending `setTimeout`: its JS timer id, its callback, and the
absolute time it fires. -/
structure TimerInfo where
  id : Nat
  cb : Callback
  fireAt : Nat
deriving DecidableEq, Repr

/-- One activation of the animation effect.  The closure captures
`sequenceToShow` (a copy) and `currentRound` by value; `currentIndex`
and `isCancelled` are the mutable closure variables; `timeoutId` is the
closure's timer-id variable (only the `showNextColor` timers are stored
in it — the anonymous hide timer is not).  Each callback schedules at
most one successor, so the run's pending timers are an `Option`. -/
structure EffectRun where
  seq : List Color
  round : Nat
  currentIndex : Nat
  cancelled : Bool
  timeoutId : Option Nat
  pending : Option TimerInfo
deriving DecidableEq, Repr

/-- The component-level picture: all effect runs ever activated (indexed
by position), a fresh-timer-id counter, the two `useState` cells
`activeColor` and `sequenceIndex`, and the cue trace. -/
structure Sys where
  runs : List EffectRun
  nextTimerId : Nat
  activeColor : Option Color
  sequenceIndex : Int
  trace : List CueEvent
deriving DecidableEq, Repr

/-- `SHOW_DURATION = 600` — how long each color stays lit. -/
def SHOW_DURATION : Nat := 600

/-- `SHOW_GAP = 200` — gap between colors (all dark). -/
def SHOW_GAP : Nat := 200

/-- The pre-roll: `timeoutId = setTimeout(showNextColor, 500)`. -/
def PREROLL : Nat := 500

/-- Mount state: `useState<Color | null>(null)`, `useState<number>(-1)`,
no runs, no timers, no cues. -/
def initSys : Sys :=
  { runs := []
    nextTimerId := 0
    activeColor := none
    sequenceIndex := -1
    trace := [] }

/-- The effect body.  With `isShowingSequence` false or an empty
sequence it resets the display and returns.  Otherwise it captures the
sequence and round by value, sets `currentIndex = 0`,
`isCancelled = false`, and schedules `showNextColor` after the 500 ms
pre-roll, storing the timer in `timeoutId`. -/
def activate (s : Sys) (seq : List Color) (round : Nat) (now : Nat) : Sys :=
  if seq.length = 0 then
    { s with activeColor := none, sequenceIndex := -1 }
  else
    { s with
      runs := s.runs ++
        [{ seq := seq
           round := round
           currentIndex := 0
           cancelled := false
           timeoutId := some s.nextTimerId
           pending := some ⟨s.nextTimerId, Callback.showNext, now + PREROLL⟩ }]
      nextTimerId := s.nextTimerId + 1 }

/-- The effect body's early-return when `isShowingSequence` is false:
`setActiveColor(null); setSequenceIndex(-1)`. -/
def deactivate (s : Sys) : Sys :=
  { s with activeColor := none, sequenceIndex := -1 }

/-- What remains pending after `if (timeoutId) clearTimeout(timeoutId)`:
the run's pending timer survives unless its id is the one stored in
`timeoutId`. -/
def cleanupPending (run : EffectRun) : Option TimerInfo :=
  match run.timeoutId, run.pending with
  | some tid, some t => if t.id = tid then none else some t
  | _, p => p

/-- The effect's cleanup function (run by React before the next effect
body or on unmount): sets `isCancelled = true`, clears the timer whose
id is stored in `timeoutId` (which does NOT clear a pending anonymous
hide timer, whose id was never stored there), and resets the display. -/
def cleanupRun (s : Sys) (r : Nat) : Sys :=
  match s.runs.get? r with
  | none => s
  | some run =>
      { s with
        runs := s.runs.set r { run with cancelled := true, pending := cleanupPending run }
        activeColor := none
        sequenceIndex := -1 }

/-- Firing run `r`'s pending timer (a no-op if it has none).

`showNextColor`: if cancelled or the captured index has reached the
captured length, it resets the display and stops.  Otherwise it reads
`sequenceToShow[currentIndex]` (under that guard), lights it, records
the audio tone and the 100 ms vibration, and schedules the anonymous
hide callback `SHOW_DURATION` later (not stored in `timeoutId`).

The hide callback: if cancelled it does nothing at all.  Otherwise it
darkens the board, increments `currentIndex`, and either schedules
`showNextColor` after `SHOW_GAP` (storing it in `timeoutId`) or, when
the captured length is exhausted, resets the display. -/
def fireRun (s : Sys) (r : Nat) : Sys :=
  match s.runs.get? r with
  | none => s
  | some run =>
      match run.pending with
      | none => s
      | some t =>
          match t.cb with
          | Callback.showNext =>
              if h : run.cancelled = true ∨ run.seq.length ≤ run.currentIndex then
                { s with
                  runs := s.runs.set r { run with pending := none }
                  activeColor := none
                  sequenceIndex := -1 }
              else
                have hidx : run.currentIndex < run.seq.length := by
                  rcases Nat.lt_or_ge run.currentIndex run.seq.length with h1 | h1
                  · exact h1
                  · exact absurd (Or.inr h1) h
                let c := run.seq.get ⟨run.currentIndex, hidx⟩
                { s with
                  runs := s.runs.set r { run with
                    pending := some ⟨s.nextTimerId, Callback.hideStep,
                      t.fireAt + SHOW_DURATION⟩ }
                  nextTimerId := s.nextTimerId + 1
                  activeColor := some c
                  sequenceIndex := Int.ofNat run.currentIndex
                  trace := s.trace ++
                    [⟨t.fireAt, r, Cue.playColor c⟩, ⟨t.fireAt, r, Cue.vibrate 100⟩] }
          | Callback.hideStep =>
              if run.cancelled = true then
                { s with runs := s.runs.set r { run with pending := none } }
              else
                if run.currentIndex + 1 < run.seq.length then
                  { s with
                    runs := s.runs.set r { run with
                      currentIndex := run.currentIndex + 1
                      pending := some ⟨s.nextTimerId, Callback.showNext,
                        t.fireAt + SHOW_GAP⟩
                      timeoutId := some s.nextTimerId }
                    nextTimerId := s.nextTimerId + 1
                    activeColor := none }
                else
                  { s with
                    runs := s.runs.set r { run with
                      currentIndex := run.currentIndex + 1
                      pending := none }
                    activeColor := none
                    sequenceIndex := -1 }

/-- States reachable from mount by effect activations, effect cleanups
and timer firings (in any order — a superset of the orders React and
the event loop produce, so safety proved here covers them all). -/
inductive Reach : Sys → Prop
  | init : Reach initSys
  | step_activate (s : Sys) (seq : List Color) (round now : Nat) :
      Reach s → Reach (activate s seq round now)
  | step_deactivate (s : Sys) : Reach s → Reach (deactivate s)
  | step_cleanup (s : Sys) (r : Nat) : Reach s → Reach (cleanupRun s r)
  | step_fire (s : Sys) (r : Nat) : Reach s → Reach (fireRun s r)

-- =========================================================================
-- List-indexing helper lemmas
-- =========================================================================

/-- Entries of a list survive appending on the right. -/
theorem get?_append_keep {α : Type} {l : List α} (l₂ : List α) {r : Nat} {y : α}
    (h : l.get? r = some y) : (l ++ l₂).get? r = some y := by
  have hlt : r < l.length := by
    rcases List.get?_eq_some.mp h with ⟨hr, _⟩
    exact hr
  rw [List.get?_append hlt]
  exact h

/-- Reading a list after a `set`: either the written cell or an untouched
one. -/
theorem get?_set_cases {α : Type} {l : List α} {r r' : Nat} {a y : α}
    (h : (l.set r a).get? r' = some y) :
    (r' = r ∧ y = a) ∨ (r' ≠ r ∧ l.get? r' = some y) := by
  by_cases hr : r = r'
  · subst hr
    left
    refine ⟨rfl, ?_⟩
    rw [List.get?_set_eq] at h
    cases hl : l.get? r with
    | none => rw [hl] at h; simp at h
    | some z => rw [hl] at h; simp at h; exact h.symm
  · right
    refine ⟨fun he => hr he.symm, ?_⟩
    rw [List.get?_set_ne _ l hr] at h
    exact h

/-- Writing a cell that exists makes it readable. -/
theorem get?_set_write {α : Type} {l : List α} {r : Nat} {old : α} (a : α)
    (h : l.get? r = some old) : (l.set r a).get? r = some a := by
  rw [List.get?_set_eq, h]
  rfl

/-- Writing one cell leaves the others readable unchanged. -/
theorem get?_set_keep {α : Type} {l : List α} {r r' : Nat} (a : α)
    (hne : r' ≠ r) : (l.set r a).get? r' = l.get? r' :=
  List.get?_set_ne _ l (fun he => hne he.symm)

-- =========================================================================
-- Step equations for the reveal machine
-- =========================================================================

/-- A surviving cleaned-up timer was pending before the cleanup. -/
theorem cleanupPending_sub {run : EffectRun} {t : TimerInfo}
    (h : cleanupPending run = some t) : run.pending = some t := by
  unfold cleanupPending at h
  cases htid : run.timeoutId with
  | none => simp only [htid] at h; exact h
  | some tid =>
      cases hp : run.pending with
      | none => simp only [htid, hp] at h; exact h
      | some t0 =>
          simp only [htid, hp] at h
          by_cases he : t0.id = tid
          · rw [if_pos he] at h
            exact absurd h (by simp)
          · rw [if_neg he] at h
            exact h

/-- A `showNextColor` timer whose id sits in `timeoutId` is cleared by
the cleanup. -/
theorem cleanupPending_clears {run : EffectRun} {t : TimerInfo}
    (hp : run.pending = some t) (htid : run.timeoutId = some t.id) :
    cleanupPending run = none := by
  unfold cleanupPending
  simp only [htid, hp]
  simp

/-- `fireRun` on an absent run is a no-op. -/
theorem fireRun_none {s : Sys} {r : Nat} (h : s.runs.get? r = none) : fireRun s r = s := by
  unfold fireRun
  rw [h]

/-- `fireRun` with no pending timer is a no-op. -/
theorem fireRun_nopending {s : Sys} {r : Nat} {run : EffectRun}
    (hget : s.runs.get? r = some run) (hp : run.pending = none) : fireRun s r = s := by
  unfold fireRun
  rw [hget]
  simp only [hp]

/-- `showNextColor` firing when cancelled or past the captured length:
reset the display and stop. -/
theorem fireRun_show_stop {s : Sys} {r : Nat} {run : EffectRun} {t : TimerInfo}
    (hget : s.runs.get? r = some run) (hp : run.pending = some t)
    (hcb : t.cb = Callback.showNext)
    (hg : run.cancelled = true ∨ run.seq.length ≤ run.currentIndex) :
    fireRun s r =
      { s with
        runs := s.runs.set r { run with pending := none }
        activeColor := none
        sequenceIndex := -1 } := by
  obtain ⟨tid, tcb, tf⟩ := t
  simp only at hcb
  subst hcb
  unfold fireRun
  rw [hget]
  simp only [hp]
  rw [dif_pos hg]

/-- `showNextColor` firing normally: light the captured element, cue the
audio tone and the vibration, schedule the hide callback. -/
theorem fireRun_show_ok {s : Sys} {r : Nat} {run : EffectRun} {t : TimerInfo}
    (hget : s.runs.get? r = some run) (hp : run.pending = some t)
    (hcb : t.cb = Callback.showNext)
    (hc : run.cancelled = false) (hidx : run.currentIndex < run.seq.length) :
    fireRun s r =
      { s with
        runs := s.runs.set r { run with
          pending := some ⟨s.nextTimerId, Callback.hideStep, t.fireAt + SHOW_DURATION⟩ }
        nextTimerId := s.nextTimerId + 1
        activeColor := some (run.seq.get ⟨run.currentIndex, hidx⟩)
        sequenceIndex := Int.ofNat run.currentIndex
        trace := s.trace ++
          [⟨t.fireAt, r, Cue.playColor (run.seq.get ⟨run.currentIndex, hidx⟩)⟩,
           ⟨t.fireAt, r, Cue.vibrate 100⟩] } := by
  obtain ⟨tid, tcb, tf⟩ := t
  simp only at hcb
  subst hcb
  have hg : ¬(run.cancelled = true ∨ run.seq.length ≤ run.currentIndex) := by
    rw [hc]
    simp only [Bool.false_eq_true, false_or, not_le]
    exact hidx
  unfold fireRun
  rw [hget]
  simp only [hp]
  rw [dif_neg hg]

/-- The hide callback firing on a cancelled run: nothing at all happens
(the timer is merely consumed). -/
theorem fireRun_hide_cancelled {s : Sys} {r : Nat} {run : EffectRun} {t : TimerInfo}
    (hget : s.runs.get? r = some run) (hp : run.pending = some t)
    (hcb : t.cb = Callback.hideStep) (hc : run.cancelled = true) :
    fireRun s r = { s with runs := s.runs.set r { run with pending := none } } := by
  obtain ⟨tid, tcb, tf⟩ := t
  simp only at hcb
  subst hcb
  unfold fireRun
  rw [hget]
  simp only [hp]
  rw [if_pos hc]

/-- The hide callback advancing to the next element: darken, increment
the captured index, schedule the next `showNextColor` after the gap. -/
theorem fireRun_hide_advance {s : Sys} {r : Nat} {run : EffectRun} {t : TimerInfo}
    (hget : s.runs.get? r = some run) (hp : run.pending = some t)
    (hcb : t.cb = Callback.hideStep) (hc : run.cancelled = false)
    (hlt : run.currentIndex + 1 < run.seq.length) :
    fireRun s r =
      { s with
        runs := s.runs.set r { run with
          currentIndex := run.currentIndex + 1
          pending := some ⟨s.nextTimerId, Callback.showNext, t.fireAt + SHOW_GAP⟩
          timeoutId := some s.nextTimerId }
        nextTimerId := s.nextTimerId + 1
        activeColor := none } := by
  obtain ⟨tid, tcb, tf⟩ := t
  simp only at hcb
  subst hcb
  unfold fireRun
  rw [hget]
  simp only [hp]
  rw [if_neg (by rw [hc]; simp), if_pos hlt]

/-- The hide callback after the last element: darken and reset the
display; no successor is scheduled. -/
theorem fireRun_hide_done {s : Sys} {r : Nat} {run : EffectRun} {t : TimerInfo}
    (hget : s.runs.get? r = some run) (hp : run.pending = some t)
    (hcb : t.cb = Callback.hideStep) (hc : run.cancelled = false)
    (hge : ¬(run.currentIndex + 1 < run.seq.length)) :
    fireRun s r =
      { s with
        runs := s.runs.set r { run with
          currentIndex := run.currentIndex + 1
          pending := none }
        activeColor := none
        sequenceIndex := -1 } := by
  obtain ⟨tid, tcb, tf⟩ := t
  simp only at hcb
  subst hcb
  unfold fireRun
  rw [hget]
  simp only [hp]
  rw [if_neg (by rw [hc]; simp), if_neg hge]

/-- Step equation for `cleanupRun` on an existing run. -/
theorem cleanupRun_eq {s : Sys} {r : Nat} {run : EffectRun}
    (hget : s.runs.get? r = some run) :
    cleanupRun s r =
      { s with
        runs := s.runs.set r { run with cancelled := true, pending := cleanupPending run }
        activeColor := none
        sequenceIndex := -1 } := by
  unfold cleanupRun
  rw [hget]

/-- `cleanupRun` on an absent run is a no-op. -/
theorem cleanupRun_none {s : Sys} {r : Nat} (h : s.runs.get? r = none) :
    cleanupRun s r = s := by
  unfold cleanupRun
  rw [h]

-- =========================================================================
-- The scheduler invariant
-- =========================================================================

/-- Structural invariant of the reveal machine.  The load-bearing clauses:
`showTid` — a pending `showNextColor` timer is exactly the one stored in
`timeoutId` (so cleanup always clears it); `hideTid` — a pending hide
timer is younger than whatever `timeoutId` holds (so cleanup never
accidentally clears it); `cancelHide` — hence on a cancelled run only a
hide timer can still be pending, and that callback checks the
cancellation flag first and does nothing.  `idxLe`/`hideLt` bound the
captured index; `activeOk`/`traceOk` tie every displayed color and
every recorded audio cue to an element of the captured sequence of the
run that produced it. -/
structure SysInv (s : Sys) : Prop where
  pendId : ∀ r run t, s.runs.get? r = some run → run.pending = some t →
    t.id < s.nextTimerId
  toutLt : ∀ r run k, s.runs.get? r = some run → run.timeoutId = some k →
    k < s.nextTimerId
  showTid : ∀ r run t, s.runs.get? r = some run → run.pending = some t →
    t.cb = Callback.showNext → run.timeoutId = some t.id
  hideTid : ∀ r run t k, s.runs.get? r = some run → run.pending = some t →
    t.cb = Callback.hideStep → run.timeoutId = some k → k < t.id
  cancelHide : ∀ r run t, s.runs.get? r = some run → run.cancelled = true →
    run.pending = some t → t.cb = Callback.hideStep
  idxLe : ∀ r run, s.runs.get? r = some run → run.currentIndex ≤ run.seq.length
  hideLt : ∀ r run t, s.runs.get? r = some run → run.pending = some t →
    t.cb = Callback.hideStep → run.currentIndex < run.seq.length
  activeOk : ∀ c, s.activeColor = some c →
    ∃ r run, s.runs.get? r = some run ∧ c ∈ run.seq
  traceOk : ∀ e, e ∈ s.trace → ∀ c, e.cue = Cue.playColor c →
    ∃ run, s.runs.get? e.run = some run ∧ c ∈ run.seq

/-- The invariant holds at mount. -/
theorem sysInv_init : SysInv initSys := by
  constructor <;> intro r <;> simp [initSys] at *

/-- The invariant is preserved by the clearing effect body. -/
theorem sysInv_deactivate (s : Sys) (inv : SysInv s) : SysInv (deactivate s) := by
  obtain ⟨h1, h2, h3, h4, h5, h6, h7, h8, h9⟩ := inv
  exact ⟨h1, h2, h3, h4, h5, h6, h7, by intro c hc; exact absurd hc (by simp [deactivate]), h9⟩

/-- The invariant is preserved by an effect activation. -/
theorem sysInv_activate (s : Sys) (seq : List Color) (round now : Nat) (inv : SysInv s) :
    SysInv (activate s seq round now) := by
  by_cases hseq : seq.length = 0
  · simp only [activate, if_pos hseq]
    obtain ⟨h1, h2, h3, h4, h5, h6, h7, h8, h9⟩ := inv
    exact ⟨h1, h2, h3, h4, h5, h6, h7, by intro c hc; exact absurd hc (by simp), h9⟩
  · simp only [activate, if_neg hseq]
    obtain ⟨h1, h2, h3, h4, h5, h6, h7, h8, h9⟩ := inv
    constructor
    · intro r run t hget hp
      rcases List.get?_eq_some.mp hget with ⟨hr, _⟩
      simp only [List.length_append, List.length_singleton] at hr
      by_cases hlt : r < s.runs.length
      · rw [List.get?_append hlt] at hget
        exact Nat.lt_succ_of_lt (h1 r run t hget hp)
      · have hre : r = s.runs.length := by omega
        subst hre
        rw [List.get?_concat_length] at hget
        obtain rfl : _ = run := Option.some.inj hget
        simp only at hp
        obtain rfl : _ = t := Option.some.inj hp
        simp
    · intro r run k hget htid
      rcases List.get?_eq_some.mp hget with ⟨hr, _⟩
      simp only [List.length_append, List.length_singleton] at hr
      by_cases hlt : r < s.runs.length
      · rw [List.get?_append hlt] at hget
        exact Nat.lt_succ_of_lt (h2 r run k hget htid)
      · have hre : r = s.runs.length := by omega
        subst hre
        rw [List.get?_concat_length] at hget
        obtain rfl : _ = run := Option.some.inj hget
        simp only at htid
        obtain rfl : _ = k := Option.some.inj htid
        simp
    · intro r run t hget hp hcb
      rcases List.get?_eq_some.mp hget with ⟨hr, _⟩
      simp only [List.length_append, List.length_singleton] at hr
      by_cases hlt : r < s.runs.length
      · rw [List.get?_append hlt] at hget
        exact h3 r run t hget hp hcb
      · have hre : r = s.runs.length := by omega
        subst hre
        rw [List.get?_concat_length] at hget
        obtain rfl : _ = run := Option.some.inj hget
        simp only at hp
        obtain rfl : _ = t := Option.some.inj hp
        rfl
    · intro r run t k hget hp hcb htid
      rcases List.get?_eq_some.mp hget with ⟨hr, _⟩
      simp only [List.length_append, List.length_singleton] at hr
      by_cases hlt : r < s.runs.length
      · rw [List.get?_append hlt] at hget
        exact h4 r run t k hget hp hcb htid
      · have hre : r = s.runs.length := by omega
        subst hre
        rw [List.get?_concat_length] at hget
        obtain rfl : _ = run := Option.some.inj hget
        simp only at hp
        obtain rfl : _ = t := Option.some.inj hp
        exact absurd hcb (by simp)
    · intro r run t hget hc hp
      rcases List.get?_eq_some.mp hget with ⟨hr, _⟩
      simp only [List.length_append, List.length_singleton] at hr
      by_cases hlt : r < s.runs.length
      · rw [List.get?_append hlt] at hget
        exact h5 r run t hget hc hp
      · have hre : r = s.runs.length := by omega
        subst hre
        rw [List.get?_concat_length] at hget
        obtain rfl : _ = run := Option.some.inj hget
        exact absurd hc (by simp)
    · intro r run hget
      rcases List.get?_eq_some.mp hget with ⟨hr, _⟩
      simp only [List.length_append, List.length_singleton] at hr
      by_cases hlt : r < s.runs.length
      · rw [List.get?_append hlt] at hget
        exact h6 r run hget
      · have hre : r = s.runs.length := by omega
        subst hre
        rw [List.get?_concat_length] at hget
        obtain rfl : _ = run := Option.some.inj hget
        simp
    · intro r run t hget hp hcb
      rcases List.get?_eq_some.mp hget with ⟨hr, _⟩
      simp only [List.length_append, List.length_singleton] at hr
      by_cases hlt : r < s.runs.length
      · rw [List.get?_append hlt] at hget
        exact h7 r run t hget hp hcb
      · have hre : r = s.runs.length := by omega
        subst hre
        rw [List.get?_concat_length] at hget
        obtain rfl : _ = run := Option.some.inj hget
        simp only at hp
        obtain rfl : _ = t := Option.some.inj hp
        exact absurd hcb (by simp)
    · intro c hc
      simp only at hc
      rcases h8 c hc with ⟨r, run, hget, hmem⟩
      exact ⟨r, run, get?_append_keep _ hget, hmem⟩
    · intro e he c hcue
      simp only at he
      rcases h9 e he c hcue with ⟨run, hget, hmem⟩
      exact ⟨run, get?_append_keep _ hget, hmem⟩

/-- The invariant is preserved by the effect cleanup. -/
theorem sysInv_cleanup (s : Sys) (r : Nat) (inv : SysInv s) : SysInv (cleanupRun s r) := by
  cases hget : s.runs.get? r with
  | none => rw [cleanupRun_none hget]; exact inv
  | some run =>
      rw [cleanupRun_eq hget]
      obtain ⟨h1, h2, h3, h4, h5, h6, h7, h8, h9⟩ := inv
      constructor
      · intro r' run'' t hget' hp
        rcases get?_set_cases hget' with ⟨rfl, rfl⟩ | ⟨_, hold⟩
        · exact h1 _ run t hget (cleanupPending_sub hp)
        · exact h1 r' run'' t hold hp
      · intro r' run'' k hget' htid
        rcases get?_set_cases hget' with ⟨rfl, rfl⟩ | ⟨_, hold⟩
        · exact h2 _ run k hget htid
        · exact h2 r' run'' k hold htid
      · intro r' run'' t hget' hp hcb
        rcases get?_set_cases hget' with ⟨rfl, rfl⟩ | ⟨_, hold⟩
        · have hp' := cleanupPending_sub hp
          have htid := h3 _ run t hget hp' hcb
          rw [cleanupPending_clears hp' htid] at hp
          exact absurd hp (by simp)
        · exact h3 r' run'' t hold hp hcb
      · intro r' run'' t k hget' hp hcb htid
        rcases get?_set_cases hget' with ⟨rfl, rfl⟩ | ⟨_, hold⟩
        · exact h4 _ run t k hget (cleanupPending_sub hp) hcb htid
        · exact h4 r' run'' t k hold hp hcb htid
      · intro r' run'' t hget' hc hp
        rcases get?_set_cases hget' with ⟨rfl, rfl⟩ | ⟨_, hold⟩
        · have hp' := cleanupPending_sub hp
          cases hcb : t.cb with
          | showNext =>
              have htid := h3 _ run t hget hp' hcb
              rw [cleanupPending_clears hp' htid] at hp
              exact absurd hp (by simp)
          | hideStep => rfl
        · exact h5 r' run'' t hold hc hp
      · intro r' run'' hget'
        rcases get?_set_cases hget' with ⟨rfl, rfl⟩ | ⟨_, hold⟩
        · exact h6 _ run hget
        · exact h6 r' run'' hold
      · intro r' run'' t hget' hp hcb
        rcases get?_set_cases hget' with ⟨rfl, rfl⟩ | ⟨_, hold⟩
        · exact h7 _ run t hget (cleanupPending_sub hp) hcb
        · exact h7 r' run'' t hold hp hcb
      · intro c hc
        exact absurd hc (by simp)
      · intro e he c hcue
        rcases h9 e he c hcue with ⟨runo, hgeto, hmem⟩
        by_cases her : e.run = r
        · subst her
          obtain rfl : runo = run := Option.some.inj (hgeto.symm.trans hget)
          exact ⟨_, get?_set_write _ hgeto, hmem⟩
        · exact ⟨runo, by rw [get?_set_keep _ her]; exact hgeto, hmem⟩

/-- The invariant is preserved by firing a pending timer. -/
theorem sysInv_fire (s : Sys) (r : Nat) (inv : SysInv s) : SysInv (fireRun s r) := by
  cases hget : s.runs.get? r with
  | none => rw [fireRun_none hget]; exact inv
  | some run =>
      cases hp : run.pending with
      | none => rw [fireRun_nopending hget hp]; exact inv
      | some t =>
          obtain ⟨h1, h2, h3, h4, h5, h6, h7, h8, h9⟩ := inv
          cases hcb : t.cb with
          | showNext =>
              by_cases hg : run.cancelled = true ∨ run.seq.length ≤ run.currentIndex
              · rw [fireRun_show_stop hget hp hcb hg]
                constructor
                · intro r' run'' t' hget' hp'
                  rcases get?_set_cases hget' with ⟨rfl, rfl⟩ | ⟨_, hold⟩
                  · exact absurd hp' (by simp)
                  · exact h1 _ run'' t' hold hp'
                · intro r' run'' k hget' htid
                  rcases get?_set_cases hget' with ⟨rfl, rfl⟩ | ⟨_, hold⟩
                  · exact h2 _ run k hget htid
                  · exact h2 _ run'' k hold htid
                · intro r' run'' t' hget' hp' hcb'
                  rcases get?_set_cases hget' with ⟨rfl, rfl⟩ | ⟨_, hold⟩
                  · exact absurd hp' (by simp)
                  · exact h3 _ run'' t' hold hp' hcb'
                · intro r' run'' t' k hget' hp' hcb' htid
                  rcases get?_set_cases hget' with ⟨rfl, rfl⟩ | ⟨_, hold⟩
                  · exact absurd hp' (by simp)
                  · exact h4 _ run'' t' k hold hp' hcb' htid
                · intro r' run'' t' hget' hc' hp'
                  rcases get?_set_cases hget' with ⟨rfl, rfl⟩ | ⟨_, hold⟩
                  · exact absurd hp' (by simp)
                  · exact h5 _ run'' t' hold hc' hp'
                · intro r' run'' hget'
                  rcases get?_set_cases hget' with ⟨rfl, rfl⟩ | ⟨_, hold⟩
                  · exact h6 _ run hget
                  · exact h6 _ run'' hold
                · intro r' run'' t' hget' hp' hcb'
                  rcases get?_set_cases hget' with ⟨rfl, rfl⟩ | ⟨_, hold⟩
                  · exact absurd hp' (by simp)
                  · exact h7 _ run'' t' hold hp' hcb'
                · intro c hc
                  exact absurd hc (by simp)
                · intro e he c hcue
                  rcases h9 e he c hcue with ⟨runo, hgeto, hmem⟩
                  by_cases her : e.run = r
                  · subst her
                    obtain rfl : runo = run := Option.some.inj (hgeto.symm.trans hget)
                    exact ⟨_, get?_set_write _ hgeto, hmem⟩
                  · exact ⟨runo, by rw [get?_set_keep _ her]; exact hgeto, hmem⟩
              · have hc : run.cancelled = false := by
                  cases hb : run.cancelled
                  · rfl
                  · exact absurd (Or.inl hb) hg
                have hidx : run.currentIndex < run.seq.length := by
                  rcases Nat.lt_or_ge run.currentIndex run.seq.length with h | h
                  · exact h
                  · exact absurd (Or.inr h) hg
                rw [fireRun_show_ok hget hp hcb hc hidx]
                constructor
                · intro r' run'' t' hget' hp'
                  rcases get?_set_cases hget' with ⟨rfl, rfl⟩ | ⟨_, hold⟩
                  · simp only at hp'
                    obtain rfl : _ = t' := Option.some.inj hp'
                    simp
                  · exact Nat.lt_succ_of_lt (h1 _ run'' t' hold hp')
                · intro r' run'' k hget' htid
                  rcases get?_set_cases hget' with ⟨rfl, rfl⟩ | ⟨_, hold⟩
                  · exact Nat.lt_succ_of_lt (h2 _ run k hget htid)
                  · exact Nat.lt_succ_of_lt (h2 _ run'' k hold htid)
                · intro r' run'' t' hget' hp' hcb'
                  rcases get?_set_cases hget' with ⟨rfl, rfl⟩ | ⟨_, hold⟩
                  · simp only at hp'
                    obtain rfl : _ = t' := Option.some.inj hp'
                    exact absurd hcb' (by simp)
                  · exact h3 _ run'' t' hold hp' hcb'
                · intro r' run'' t' k hget' hp' hcb' htid
                  rcases get?_set_cases hget' with ⟨rfl, rfl⟩ | ⟨_, hold⟩
                  · simp only at hp'
                    obtain rfl : _ = t' := Option.some.inj hp'
                    exact h2 _ run k hget htid
                  · exact h4 _ run'' t' k hold hp' hcb' htid
                · intro r' run'' t' hget' hc' hp'
                  rcases get?_set_cases hget' with ⟨rfl, rfl⟩ | ⟨_, hold⟩
                  · simp only at hp'
                    obtain rfl : _ = t' := Option.some.inj hp'
                    rfl
                  · exact h5 _ run'' t' hold hc' hp'
                · intro r' run'' hget'
                  rcases get?_set_cases hget' with ⟨rfl, rfl⟩ | ⟨_, hold⟩
                  · exact h6 _ run hget
                  · exact h6 _ run'' hold
                · intro r' run'' t' hget' hp' hcb'
                  rcases get?_set_cases hget' with ⟨rfl, rfl⟩ | ⟨_, hold⟩
                  · exact hidx
                  · exact h7 _ run'' t' hold hp' hcb'
                · intro c hcc
                  simp only at hcc
                  obtain rfl : _ = c := Option.some.inj hcc
                  exact ⟨r, _, get?_set_write _ hget, List.get_mem _ _ _⟩
                · intro e he c hcue
                  simp only at he
                  rcases List.mem_append.mp he with hin | hin
                  · rcases h9 e hin c hcue with ⟨runo, hgeto, hmem⟩
                    by_cases her : e.run = r
                    · subst her
                      obtain rfl : runo = run := Option.some.inj (hgeto.symm.trans hget)
                      exact ⟨_, get?_set_write _ hgeto, hmem⟩
                    · exact ⟨runo, by rw [get?_set_keep _ her]; exact hgeto, hmem⟩
                  · rcases List.mem_cons.mp hin with rfl | hin2
                    · simp only at hcue
                      obtain rfl : _ = c := Cue.playColor.inj hcue
                      exact ⟨_, get?_set_write _ hget, List.get_mem _ _ _⟩
                    · rcases List.mem_singleton.mp hin2 with rfl
                      exact absurd hcue (by simp)
          | hideStep =>
              by_cases hct : run.cancelled = true
              · rw [fireRun_hide_cancelled hget hp hcb hct]
                constructor
                · intro r' run'' t' hget' hp'
                  rcases get?_set_cases hget' with ⟨rfl, rfl⟩ | ⟨_, hold⟩
                  · exact absurd hp' (by simp)
                  · exact h1 _ run'' t' hold hp'
                · intro r' run'' k hget' htid
                  rcases get?_set_cases hget' with ⟨rfl, rfl⟩ | ⟨_, hold⟩
                  · exact h2 _ run k hget htid
                  · exact h2 _ run'' k hold htid
                · intro r' run'' t' hget' hp' hcb'
                  rcases get?_set_cases hget' with ⟨rfl, rfl⟩ | ⟨_, hold⟩
                  · exact absurd hp' (by simp)
                  · exact h3 _ run'' t' hold hp' hcb'
                · intro r' run'' t' k hget' hp' hcb' htid
                  rcases get?_set_cases hget' with ⟨rfl, rfl⟩ | ⟨_, hold⟩
                  · exact absurd hp' (by simp)
                  · exact h4 _ run'' t' k hold hp' hcb' htid
                · intro r' run'' t' hget' hc' hp'
                  rcases get?_set_cases hget' with ⟨rfl, rfl⟩ | ⟨_, hold⟩
                  · exact absurd hp' (by simp)
                  · exact h5 _ run'' t' hold hc' hp'
                · intro r' run'' hget'
                  rcases get?_set_cases hget' with ⟨rfl, rfl⟩ | ⟨_, hold⟩
                  · exact h6 _ run hget
                  · exact h6 _ run'' hold
                · intro r' run'' t' hget' hp' hcb'
                  rcases get?_set_cases hget' with ⟨rfl, rfl⟩ | ⟨_, hold⟩
                  · exact absurd hp' (by simp)
                  · exact h7 _ run'' t' hold hp' hcb'
                · intro c hcc
                  rcases h8 c hcc with ⟨ro, runo, hgeto, hmem⟩
                  by_cases her : ro = r
                  · subst her
                    obtain rfl : runo = run := Option.some.inj (hgeto.symm.trans hget)
                    exact ⟨ro, _, get?_set_write _ hgeto, hmem⟩
                  · exact ⟨ro, runo, by rw [get?_set_keep _ her]; exact hgeto, hmem⟩
                · intro e he c hcue
                  rcases h9 e he c hcue with ⟨runo, hgeto, hmem⟩
                  by_cases her : e.run = r
                  · subst her
                    obtain rfl : runo = run := Option.some.inj (hgeto.symm.trans hget)
                    exact ⟨_, get?_set_write _ hgeto, hmem⟩
                  · exact ⟨runo, by rw [get?_set_keep _ her]; exact hgeto, hmem⟩
              · have hcf : run.cancelled = false := by
                  cases hb : run.cancelled
                  · rfl
                  · exact absurd hb hct
                by_cases hlt : run.currentIndex + 1 < run.seq.length
                · rw [fireRun_hide_advance hget hp hcb hcf hlt]
                  constructor
                  · intro r' run'' t' hget' hp'
                    rcases get?_set_cases hget' with ⟨rfl, rfl⟩ | ⟨_, hold⟩
                    · simp only at hp'
                      obtain rfl : _ = t' := Option.some.inj hp'
                      simp
                    · exact Nat.lt_succ_of_lt (h1 _ run'' t' hold hp')
                  · intro r' run'' k hget' htid
                    rcases get?_set_cases hget' with ⟨rfl, rfl⟩ | ⟨_, hold⟩
                    · simp only at htid
                      obtain rfl : _ = k := Option.some.inj htid
                      simp
                    · exact Nat.lt_succ_of_lt (h2 _ run'' k hold htid)
                  · intro r' run'' t' hget' hp' hcb'
                    rcases get?_set_cases hget' with ⟨rfl, rfl⟩ | ⟨_, hold⟩
                    · simp only at hp'
                      obtain rfl : _ = t' := Option.some.inj hp'
                      rfl
                    · exact h3 _ run'' t' hold hp' hcb'
                  · intro r' run'' t' k hget' hp' hcb' htid
                    rcases get?_set_cases hget' with ⟨rfl, rfl⟩ | ⟨_, hold⟩
                    · simp only at hp'
                      obtain rfl : _ = t' := Option.some.inj hp'
                      exact absurd hcb' (by simp)
                    · exact h4 _ run'' t' k hold hp' hcb' htid
                  · intro r' run'' t' hget' hc' hp'
                    rcases get?_set_cases hget' with ⟨rfl, rfl⟩ | ⟨_, hold⟩
                    · exact absurd hc' (by simp [hcf])
                    · exact h5 _ run'' t' hold hc' hp'
                  · intro r' run'' hget'
                    rcases get?_set_cases hget' with ⟨rfl, rfl⟩ | ⟨_, hold⟩
                    · exact Nat.le_of_lt hlt
                    · exact h6 _ run'' hold
                  · intro r' run'' t' hget' hp' hcb'
                    rcases get?_set_cases hget' with ⟨rfl, rfl⟩ | ⟨_, hold⟩
                    · simp only at hp'
                      obtain rfl : _ = t' := Option.some.inj hp'
                      exact absurd hcb' (by simp)
                    · exact h7 _ run'' t' hold hp' hcb'
                  · intro c hcc
                    exact absurd hcc (by simp)
                  · intro e he c hcue
                    rcases h9 e he c hcue with ⟨runo, hgeto, hmem⟩
                    by_cases her : e.run = r
                    · subst her
                      obtain rfl : runo = run := Option.some.inj (hgeto.symm.trans hget)
                      exact ⟨_, get?_set_write _ hgeto, hmem⟩
                    · exact ⟨runo, by rw [get?_set_keep _ her]; exact hgeto, hmem⟩
                · rw [fireRun_hide_done hget hp hcb hcf hlt]
                  constructor
                  · intro r' run'' t' hget' hp'
                    rcases get?_set_cases hget' with ⟨rfl, rfl⟩ | ⟨_, hold⟩
                    · exact absurd hp' (by simp)
                    · exact h1 _ run'' t' hold hp'
                  · intro r' run'' k hget' htid
                    rcases get?_set_cases hget' with ⟨rfl, rfl⟩ | ⟨_, hold⟩
                    · exact h2 _ run k hget htid
                    · exact h2 _ run'' k hold htid
                  · intro r' run'' t' hget' hp' hcb'
                    rcases get?_set_cases hget' with ⟨rfl, rfl⟩ | ⟨_, hold⟩
                    · exact absurd hp' (by simp)
                    · exact h3 _ run'' t' hold hp' hcb'
                  · intro r' run'' t' k hget' hp' hcb' htid
                    rcases get?_set_cases hget' with ⟨rfl, rfl⟩ | ⟨_, hold⟩
                    · exact absurd hp' (by simp)
                    · exact h4 _ run'' t' k hold hp' hcb' htid
                  · intro r' run'' t' hget' hc' hp'
                    rcases get?_set_cases hget' with ⟨rfl, rfl⟩ | ⟨_, hold⟩
                    · exact absurd hp' (by simp)
                    · exact h5 _ run'' t' hold hc' hp'
                  · intro r' run'' hget'
                    rcases get?_set_cases hget' with ⟨rfl, rfl⟩ | ⟨_, hold⟩
                    · have := h7 _ run t hget hp hcb
                      simp only
                      omega
                    · exact h6 _ run'' hold
                  · intro r' run'' t' hget' hp' hcb'
                    rcases get?_set_cases hget' with ⟨rfl, rfl⟩ | ⟨_, hold⟩
                    · exact absurd hp' (by simp)
                    · exact h7 _ run'' t' hold hp' hcb'
                  · intro c hcc
                    exact absurd hcc (by simp)
                  · intro e he c hcue
                    rcases h9 e he c hcue with ⟨runo, hgeto, hmem⟩
                    by_cases her : e.run = r
                    · subst her
                      obtain rfl : runo = run := Option.some.inj (hgeto.symm.trans hget)
                      exact ⟨_, get?_set_write _ hgeto, hmem⟩
                    · exact ⟨runo, by rw [get?_set_keep _ her]; exact hgeto, hmem⟩

/-- Every reachable state satisfies the invariant. -/
theorem reach_sysInv (s : Sys) (hs : Reach s) : SysInv s := by
  induction hs with
  | init => exact sysInv_init
  | step_activate s seq round now _ ih => exact sysInv_activate s seq round now ih
  | step_deactivate s _ ih => exact sysInv_deactivate s ih
  | step_cleanup s r _ ih => exact sysInv_cleanup s r ih
  | step_fire s r _ ih => exact sysInv_fire s r ih

/-- C1: once a reveal run has been cancelled, firing any timer that is
still pending for it mutates nothing and cues nothing: the active
color, the reveal index, the cue trace and the timer counter are
unchanged, and the only difference is that the fired timer is consumed
— no successor is scheduled.  Hence a superseded round N−1 produces
zero visual/audio side effects after its cancellation (which happens
before round N schedules its own timers). -/
theorem cancelled_run_fires_silently (s : Sys) (hs : Reach s) (r : Nat) (run : EffectRun)
    (hr : s.runs.get? r = some run) (hc : run.cancelled = true)
    (t : TimerInfo) (hp : run.pending = some t) :
    (fireRun s r).activeColor = s.activeColor ∧
    (fireRun s r).sequenceIndex = s.sequenceIndex ∧
    (fireRun s r).trace = s.trace ∧
    (fireRun s r).nextTimerId = s.nextTimerId ∧
    (fireRun s r).runs = s.runs.set r { run with pending := none } := by
  have hcb : t.cb = Callback.hideStep := (reach_sysInv s hs).cancelHide r run t hr hc hp
  rw [fireRun_hide_cancelled hr hp hcb hc]
  exact ⟨rfl, rfl, rfl, rfl, rfl⟩

/-- Witness for C1: activate a reveal of `[red]`, fire its first show
timer (the anonymous hide timer is now pending and `timeoutId` is
stale), then run the cleanup: the hide timer survives the cleanup, and
firing it afterwards changes nothing. -/
theorem cancelled_run_fires_silently_witness :
    (fireRun (cleanupRun (fireRun (activate initSys [Color.red] 1 0) 0) 0) 0).activeColor =
      (cleanupRun (fireRun (activate initSys [Color.red] 1 0) 0) 0).activeColor ∧
    (fireRun (cleanupRun (fireRun (activate initSys [Color.red] 1 0) 0) 0) 0).trace =
      (cleanupRun (fireRun (activate initSys [Color.red] 1 0) 0) 0).trace := by
  have h := cancelled_run_fires_silently
    (cleanupRun (fireRun (activate initSys [Color.red] 1 0) 0) 0)
    (Reach.step_cleanup _ 0 (Reach.step_fire _ 0 (Reach.step_activate _ [Color.red] 1 0 Reach.init)))
    0
    { seq := [Color.red], round := 1, currentIndex := 0, cancelled := true,
      timeoutId := some 0,
      pending := some { id := 1, cb := Callback.hideStep, fireAt := 1100 } }
    (by decide) (by decide)
    { id := 1, cb := Callback.hideStep, fireAt := 1100 } (by decide)
  exact ⟨h.1, h.2.2.1⟩

-- =========================================================================
-- The deterministic timeline of one uncancelled reveal
-- =========================================================================

/-- `getD` agrees with `get` inside the bounds. -/
theorem getD_eq_get {α : Type} (l : List α) (i : Nat) (d : α) (h : i < l.length) :
    l.getD i d = l.get ⟨i, h⟩ := by
  rw [List.getD_eq_get?, List.get?_eq_get h]
  rfl

/-- The reveal machine right after activating a reveal of `seq` for
round 1 at time 0 on a freshly mounted board. -/
def revealInit (seq : List Color) : Sys :=
  activate initSys seq 1 0

/-- Fire the single run's pending timer as long as it is due at or
before time `t` (fuel-bounded; `2·length + 1` fuel covers a whole
reveal). -/
def advanceAux : Nat → Sys → Nat → Sys
  | 0, s, _ => s
  | fuel+1, s, t =>
      match s.runs.get? 0 with
      | none => s
      | some run =>
          match run.pending with
          | none => s
          | some tm => if tm.fireAt ≤ t then advanceAux fuel (fireRun s 0) t else s

/-- The active color the board displays at time `t` during an
uncancelled reveal of `seq` started at time 0. -/
def activeAt (seq : List Color) (t : Nat) : Option Color :=
  (advanceAux (2 * seq.length + 1) (revealInit seq) t).activeColor

/-- The cues recorded after the first `n` elements have been shown:
element `j` cues its tone and a 100 ms vibration at `500 + 800·j`. -/
def traceUpTo (seq : List Color) : Nat → List CueEvent
  | 0 => []
  | n+1 => traceUpTo seq n ++
      [⟨500 + 800 * n, 0, Cue.playColor (seq.getD n Color.red)⟩,
       ⟨500 + 800 * n, 0, Cue.vibrate 100⟩]

/-- The machine while element `i` is lit: lit since `500 + 800·i`, the
anonymous hide timer pending at `1100 + 800·i`, `timeoutId` holding the
already-fired show timer's id. -/
def showState (seq : List Color) (i : Nat) : Sys :=
  { runs := [{ seq := seq, round := 1, currentIndex := i, cancelled := false,
               timeoutId := some (2*i), pending := some ⟨2*i+1, Callback.hideStep, 1100 + 800*i⟩ }],
    nextTimerId := 2*i+2,
    activeColor := some (seq.getD i Color.red),
    sequenceIndex := Int.ofNat i,
    trace := traceUpTo seq (i+1) }

/-- The machine during the 200 ms gap after element `i`: dark, the next
show timer pending at `1300 + 800·i`. -/
def gapState (seq : List Color) (i : Nat) : Sys :=
  { runs := [{ seq := seq, round := 1, currentIndex := i+1, cancelled := false,
               timeoutId := some (2*i+2), pending := some ⟨2*i+2, Callback.showNext, 1300 + 800*i⟩ }],
    nextTimerId := 2*i+3,
    activeColor := none,
    sequenceIndex := Int.ofNat i,
    trace := traceUpTo seq (i+1) }

/-- The machine after the reveal has finished: dark, display reset, no
timer pending. -/
def doneState (seq : List Color) : Sys :=
  { runs := [{ seq := seq, round := 1, currentIndex := seq.length, cancelled := false,
               timeoutId := some (2*(seq.length - 1)), pending := none }],
    nextTimerId := 2*seq.length,
    activeColor := none,
    sequenceIndex := -1,
    trace := traceUpTo seq seq.length }

/-- `revealInit` spelt out for a non-empty sequence. -/
theorem revealInit_eq (seq : List Color) (hne : seq.length ≠ 0) :
    revealInit seq =
      { runs := [{ seq := seq, round := 1, currentIndex := 0, cancelled := false,
                   timeoutId := some 0, pending := some ⟨0, Callback.showNext, 500⟩ }],
        nextTimerId := 1,
        activeColor := none,
        sequenceIndex := -1,
        trace := [] } := by
  unfold revealInit activate initSys PREROLL
  rw [if_neg hne]
  rfl

/-- Reading the single run of `revealInit`. -/
theorem revealInit_get (seq : List Color) (hne : seq.length ≠ 0) :
    (revealInit seq).runs.get? 0 =
      some { seq := seq, round := 1, currentIndex := 0, cancelled := false,
             timeoutId := some 0, pending := some ⟨0, Callback.showNext, 500⟩ } := by
  rw [revealInit_eq seq hne]
  rfl

/-- `advanceAux` unfolding: a due timer fires. -/
theorem advanceAux_fire (fuel : Nat) {s : Sys} (t : Nat) {run : EffectRun} {tm : TimerInfo}
    (hget : s.runs.get? 0 = some run) (hp : run.pending = some tm)
    (hle : tm.fireAt ≤ t) :
    advanceAux (fuel+1) s t = advanceAux fuel (fireRun s 0) t := by
  conv_lhs => unfold advanceAux
  rw [hget]
  simp only [hp]
  rw [if_pos hle]

/-- `advanceAux` unfolding: a not-yet-due timer holds the state. -/
theorem advanceAux_hold {fuel : Nat} {s : Sys} {t : Nat} {run : EffectRun} {tm : TimerInfo}
    (hget : s.runs.get? 0 = some run) (hp : run.pending = some tm)
    (hgt : t < tm.fireAt) :
    advanceAux fuel s t = s := by
  cases fuel with
  | zero => rfl
  | succ fuel =>
      conv_lhs => unfold advanceAux
      rw [hget]
      simp only [hp]
      rw [if_neg (by omega)]

/-- `advanceAux` unfolding: nothing pending, nothing to do. -/
theorem advanceAux_nopending {fuel : Nat} {s : Sys} {t : Nat} {run : EffectRun}
    (hget : s.runs.get? 0 = some run) (hp : run.pending = none) :
    advanceAux fuel s t = s := by
  cases fuel with
  | zero => rfl
  | succ fuel =>
      conv_lhs => unfold advanceAux
      rw [hget]
      simp only [hp]

/-- `advanceAux` unfolding: no run at all, nothing to do. -/
theorem advanceAux_norun {fuel : Nat} {s : Sys} {t : Nat}
    (hget : s.runs.get? 0 = none) :
    advanceAux fuel s t = s := by
  cases fuel with
  | zero => rfl
  | succ fuel =>
      conv_lhs => unfold advanceAux
      rw [hget]

/-- Firing the pre-roll timer lights element 0. -/
theorem fire_revealInit (seq : List Color) (hne : seq ≠ []) :
    fireRun (revealInit seq) 0 = showState seq 0 := by
  have hlen : seq.length ≠ 0 := fun h => hne (List.length_eq_zero.mp h)
  have hidx : 0 < seq.length := Nat.pos_of_ne_zero hlen
  rw [fireRun_show_ok (revealInit_get seq hlen) rfl rfl rfl hidx]
  rw [revealInit_eq seq hlen]
  unfold showState traceUpTo traceUpTo SHOW_DURATION
  simp [getD_eq_get seq 0 Color.red hidx, List.getElem?_eq_getElem hidx]

/-- Firing the hide timer of element `i` (not the last) starts the gap. -/
theorem fire_show (seq : List Color) (i : Nat) (hi : i + 1 < seq.length) :
    fireRun (showState seq i) 0 = gapState seq i := by
  have hget : (showState seq i).runs.get? 0 = some
      { seq := seq, round := 1, currentIndex := i, cancelled := false,
        timeoutId := some (2*i), pending := some ⟨2*i+1, Callback.hideStep, 1100 + 800*i⟩ } := rfl
  rw [fireRun_hide_advance hget rfl rfl rfl hi]
  unfold showState gapState SHOW_GAP
  simp only [List.set, Sys.mk.injEq, List.cons.injEq, EffectRun.mk.injEq,
    Option.some.injEq, TimerInfo.mk.injEq, and_true, true_and, eq_self_iff_true]
  omega

/-- Firing the show timer of element `i+1` lights it. -/
theorem fire_gap (seq : List Color) (i : Nat) (hi : i + 1 < seq.length) :
    fireRun (gapState seq i) 0 = showState seq (i+1) := by
  have hget : (gapState seq i).runs.get? 0 = some
      { seq := seq, round := 1, currentIndex := i+1, cancelled := false,
        timeoutId := some (2*i+2), pending := some ⟨2*i+2, Callback.showNext, 1300 + 800*i⟩ } := rfl
  rw [fireRun_show_ok hget rfl rfl rfl hi]
  have htr : traceUpTo seq (i + 1 + 1) =
      traceUpTo seq (i + 1) ++
        [⟨500 + 800 * (i + 1), 0, Cue.playColor (seq.getD (i+1) Color.red)⟩,
         ⟨500 + 800 * (i + 1), 0, Cue.vibrate 100⟩] := rfl
  unfold showState gapState SHOW_DURATION
  rw [htr, getD_eq_get seq (i+1) Color.red hi]
  simp only [List.set, Sys.mk.injEq, List.cons.injEq, EffectRun.mk.injEq,
    Option.some.injEq, TimerInfo.mk.injEq, List.append_cancel_left_eq, CueEvent.mk.injEq,
    Cue.playColor.injEq, List.nil_eq, and_true, true_and, eq_self_iff_true]
  omega

/-- Firing the hide timer of the last element finishes the reveal. -/
theorem fire_show_last (seq : List Color) (i : Nat) (hi : i + 1 = seq.length) :
    fireRun (showState seq i) 0 = doneState seq := by
  have hget : (showState seq i).runs.get? 0 = some
      { seq := seq, round := 1, currentIndex := i, cancelled := false,
        timeoutId := some (2*i), pending := some ⟨2*i+1, Callback.hideStep, 1100 + 800*i⟩ } := rfl
  rw [fireRun_hide_done hget rfl rfl rfl (show ¬(i + 1 < seq.length) by omega)]
  unfold showState doneState
  rw [← hi]
  simp only [List.set, Sys.mk.injEq, List.cons.injEq, EffectRun.mk.injEq,
    Option.some.injEq, TimerInfo.mk.injEq, and_true, true_and, eq_self_iff_true]
  omega

/-- Walking the machine from activation to the lit state of element `i`. -/
theorem reveal_advance (seq : List Color) (hne : seq ≠ []) :
    ∀ i, i < seq.length → ∀ t, 500 + 800 * i ≤ t → ∀ fuel,
      advanceAux (fuel + (2*i+1)) (revealInit seq) t = advanceAux fuel (showState seq i) t := by
  have hlen : seq.length ≠ 0 := fun h => hne (List.length_eq_zero.mp h)
  intro i
  induction i with
  | zero =>
      intro _ t ht fuel
      have h1 := advanceAux_fire fuel t (revealInit_get seq hlen) rfl
        (show (500:Nat) ≤ t by omega)
      rw [h1, fire_revealInit seq hne]
  | succ i ih =>
      intro hi t ht fuel
      have hiLt : i < seq.length := Nat.lt_of_succ_lt hi
      have ht' : 500 + 800 * i ≤ t := by omega
      have heq : fuel + (2*(i+1)+1) = (fuel + 2) + (2*i+1) := by omega
      rw [heq, ih hiLt t ht' (fuel+2)]
      have hget : (showState seq i).runs.get? 0 = some
          { seq := seq, round := 1, currentIndex := i, cancelled := false,
            timeoutId := some (2*i), pending := some ⟨2*i+1, Callback.hideStep, 1100 + 800*i⟩ } :=
        rfl
      have h1 := advanceAux_fire (fuel + 1) t hget rfl
        (show (1100 + 800*i : Nat) ≤ t by omega)
      rw [h1, fire_show seq i hi]
      have hget2 : (gapState seq i).runs.get? 0 = some
          { seq := seq, round := 1, currentIndex := i+1, cancelled := false,
            timeoutId := some (2*i+2), pending := some ⟨2*i+2, Callback.showNext, 1300 + 800*i⟩ } :=
        rfl
      have h2 := advanceAux_fire fuel t hget2 rfl
        (show (1300 + 800*i : Nat) ≤ t by omega)
      rw [h2, fire_gap seq i hi]

/-- After the last element's hide timer has fired, the machine sits in
`doneState` forever. -/
theorem advance_done (seq : List Color) (hne : seq ≠ []) (t : Nat)
    (ht : 1100 + 800 * (seq.length - 1) ≤ t) :
    advanceAux (2 * seq.length + 1) (revealInit seq) t = doneState seq := by
  have hlen : seq.length ≠ 0 := fun h => hne (List.length_eq_zero.mp h)
  have hn : seq.length - 1 < seq.length := by omega
  have hfuel : 2 * seq.length + 1 = 2 + (2*(seq.length - 1)+1) := by omega
  rw [hfuel, reveal_advance seq hne (seq.length - 1) hn t (by omega)]
  have hget : (showState seq (seq.length - 1)).runs.get? 0 = some
      { seq := seq, round := 1, currentIndex := seq.length - 1, cancelled := false,
        timeoutId := some (2*(seq.length - 1)),
        pending := some ⟨2*(seq.length - 1)+1, Callback.hideStep, 1100 + 800*(seq.length - 1)⟩ } :=
    rfl
  have h1 := advanceAux_fire 1 t hget rfl
    (show (1100 + 800*(seq.length - 1) : Nat) ≤ t from ht)
  rw [h1, fire_show_last seq (seq.length - 1) (by omega)]
  have hgetd : (doneState seq).runs.get? 0 = some
      { seq := seq, round := 1, currentIndex := seq.length, cancelled := false,
        timeoutId := some (2*(seq.length - 1)), pending := none } := rfl
  exact advanceAux_nopending hgetd rfl

/-- Before the pre-roll elapses the board is dark. -/
theorem activeAt_preroll (seq : List Color) (hne : seq ≠ []) (t : Nat) (ht : t < 500) :
    activeAt seq t = none := by
  have hlen : seq.length ≠ 0 := fun h => hne (List.length_eq_zero.mp h)
  unfold activeAt
  rw [advanceAux_hold (revealInit_get seq hlen) rfl (show t < (500:Nat) from ht)]
  rw [revealInit_eq seq hlen]

/-- While element `i` is lit the board shows exactly that element. -/
theorem activeAt_show (seq : List Color) (hne : seq ≠ []) (i : Nat) (hi : i < seq.length)
    (t : Nat) (h1 : 500 + 800 * i ≤ t) (h2 : t < 1100 + 800 * i) :
    activeAt seq t = some (seq.get ⟨i, hi⟩) := by
  unfold activeAt
  have hfuel : 2 * seq.length + 1 = 2 * (seq.length - i) + (2*i+1) := by omega
  rw [hfuel, reveal_advance seq hne i hi t h1]
  have hget : (showState seq i).runs.get? 0 = some
      { seq := seq, round := 1, currentIndex := i, cancelled := false,
        timeoutId := some (2*i), pending := some ⟨2*i+1, Callback.hideStep, 1100 + 800*i⟩ } := rfl
  rw [advanceAux_hold hget rfl (show t < (1100 + 800*i : Nat) from h2)]
  unfold showState
  rw [getD_eq_get seq i Color.red hi]

/-- During the 200 ms gap after element `i` the board is dark. -/
theorem activeAt_gap (seq : List Color) (hne : seq ≠ []) (i : Nat) (hi : i + 1 < seq.length)
    (t : Nat) (h1 : 1100 + 800 * i ≤ t) (h2 : t < 1300 + 800 * i) :
    activeAt seq t = none := by
  unfold activeAt
  have hiLt : i < seq.length := by omega
  have hfuel : 2 * seq.length + 1 = (2 * (seq.length - i) - 1 + 1) + (2*i+1) := by omega
  rw [hfuel, reveal_advance seq hne i hiLt t (by omega)]
  have hget : (showState seq i).runs.get? 0 = some
      { seq := seq, round := 1, currentIndex := i, cancelled := false,
        timeoutId := some (2*i), pending := some ⟨2*i+1, Callback.hideStep, 1100 + 800*i⟩ } := rfl
  rw [advanceAux_fire _ _ hget rfl (show (1100 + 800*i : Nat) ≤ t from h1), fire_show seq i hi]
  have hget2 : (gapState seq i).runs.get? 0 = some
      { seq := seq, round := 1, currentIndex := i+1, cancelled := false,
        timeoutId := some (2*i+2), pending := some ⟨2*i+2, Callback.showNext, 1300 + 800*i⟩ } :=
    rfl
  rw [advanceAux_hold hget2 rfl (show t < (1300 + 800*i : Nat) from h2)]
  rfl

/-- After the last element's 600 ms the board stays dark forever. -/
theorem activeAt_after (seq : List Color) (hne : seq ≠ []) (t : Nat)
    (ht : 1100 + 800 * (seq.length - 1) ≤ t) :
    activeAt seq t = none := by
  unfold activeAt
  rw [advance_done seq hne t ht]
  rfl

/-- C2: an uncancelled reveal of a non-empty captured sequence shows no
color during the 500 ms pre-roll; shows element `i` (and only it)
during `[500+800·i, 1100+800·i)` — that is, for exactly the 600 ms show
window; shows nothing during the 200 ms gap `[1100+800·i, 1300+800·i)`
before the next element; and shows nothing from the end of the last
element's show window on.  In particular the `[red, blue]` timeline is
none(0–500), red(500–1100), none(1100–1300), blue(1300–1900),
none(≥ 1900). -/
theorem reveal_timeline (seq : List Color) (hne : seq ≠ []) (i : Nat) (hi : i < seq.length)
    (t : Nat) :
    (t < 500 → activeAt seq t = none) ∧
    (500 + 800 * i ≤ t → t < 1100 + 800 * i → activeAt seq t = some (seq.get ⟨i, hi⟩)) ∧
    (1100 + 800 * i ≤ t → t < 1300 + 800 * i → i + 1 < seq.length → activeAt seq t = none) ∧
    (1100 + 800 * (seq.length - 1) ≤ t → activeAt seq t = none) ∧
    (activeAt [Color.red, Color.blue] 0 = none ∧
     activeAt [Color.red, Color.blue] 499 = none ∧
     activeAt [Color.red, Color.blue] 500 = some Color.red ∧
     activeAt [Color.red, Color.blue] 1099 = some Color.red ∧
     activeAt [Color.red, Color.blue] 1100 = none ∧
     activeAt [Color.red, Color.blue] 1299 = none ∧
     activeAt [Color.red, Color.blue] 1300 = some Color.blue ∧
     activeAt [Color.red, Color.blue] 1899 = some Color.blue ∧
     activeAt [Color.red, Color.blue] 1900 = none ∧
     activeAt [Color.red, Color.blue] 2500 = none) := by
  refine ⟨fun ht => activeAt_preroll seq hne t ht,
    fun h1 h2 => activeAt_show seq hne i hi t h1 h2,
    fun h1 h2 hi2 => activeAt_gap seq hne i hi2 t h1 h2,
    fun ht => activeAt_after seq hne t ht,
    by decide, by decide, by decide, by decide, by decide,
    by decide, by decide, by decide, by decide, by decide⟩

/-- Witness for C2: the boundary instants of the `[red, blue]` scenario,
obtained from the general timeline theorem. -/
theorem reveal_timeline_witness :
    activeAt [Color.red, Color.blue] 700 = some Color.red ∧
    activeAt [Color.red, Color.blue] 1150 = none ∧
    activeAt [Color.red, Color.blue] 3000 = none := by
  refine ⟨?_, ?_, ?_⟩
  · exact (reveal_timeline [Color.red, Color.blue] (by decide) 0 (by decide) 700).2.1
      (by decide) (by decide)
  · exact (reveal_timeline [Color.red, Color.blue] (by decide) 0 (by decide) 1150).2.2.1
      (by decide) (by decide) (by decide)
  · exact (reveal_timeline [Color.red, Color.blue] (by decide) 0 (by decide) 3000).2.2.2.1
      (by decide)

/-- The color a recorded cue plays, if it is an audio tone. -/
def cueColorOf (e : CueEvent) : Option Color :=
  match e.cue with
  | Cue.playColor c => some c
  | Cue.vibrate _ => none

/-- The tones recorded after showing the first `n` elements are exactly
those elements, in order. -/
theorem filterMap_traceUpTo (seq : List Color) :
    ∀ n, n ≤ seq.length → (traceUpTo seq n).filterMap cueColorOf = seq.take n := by
  intro n
  induction n with
  | zero => intro _; rfl
  | succ n ih =>
      intro hn
      have hlt : n < seq.length := by omega
      have hstep : traceUpTo seq (n+1) = traceUpTo seq n ++
          [⟨500 + 800 * n, 0, Cue.playColor (seq.getD n Color.red)⟩,
           ⟨500 + 800 * n, 0, Cue.vibrate 100⟩] := rfl
      rw [hstep, List.filterMap_append, ih (by omega), List.take_succ]
      have h2 : seq[n]? = some (seq.get ⟨n, hlt⟩) := by
        rw [← List.get?_eq_getElem?]
        exact List.get?_eq_get hlt
      rw [h2, getD_eq_get seq n Color.red hlt]
      rfl

/-- C9: during a reveal every captured-sequence read is guarded by
`currentIndex < sequenceLength`: in every reachable state the displayed
active color is an element of the captured sequence of some run (never
an out-of-bounds read), every audio tone ever cued is an element of the
captured sequence of the run that cued it, and an uncancelled run of a
captured sequence performs exactly one reveal step per element — the
tones it records are precisely the sequence, in order, so it terminates
after `sequenceLength` steps. -/
theorem reveal_reads_in_bounds (s : Sys) (hs : Reach s) (seq : List Color) :
    (∀ c, s.activeColor = some c → ∃ r run, s.runs.get? r = some run ∧ c ∈ run.seq) ∧
    (∀ e, e ∈ s.trace → ∀ c, e.cue = Cue.playColor c →
      ∃ run, s.runs.get? e.run = some run ∧ c ∈ run.seq) ∧
    ((advanceAux (2 * seq.length + 1) (revealInit seq)
        (500 + 800 * seq.length)).trace.filterMap cueColorOf = seq) := by
  refine ⟨(reach_sysInv s hs).activeOk, (reach_sysInv s hs).traceOk, ?_⟩
  by_cases hne : seq = []
  · subst hne
    rfl
  · rw [advance_done seq hne _ (by
      have : seq.length ≠ 0 := fun h => hne (List.length_eq_zero.mp h)
      omega)]
    unfold doneState
    rw [filterMap_traceUpTo seq seq.length (le_refl _), List.take_length]

/-- Witness for C9: the full reveal of `[red, blue]` records exactly the
tones red then blue, and the invariant claims hold at a concrete
reachable mid-reveal state. -/
theorem reveal_reads_in_bounds_witness :
    (advanceAux (2 * [Color.red, Color.blue].length + 1) (revealInit [Color.red, Color.blue])
        (500 + 800 * [Color.red, Color.blue].length)).trace.filterMap cueColorOf =
      [Color.red, Color.blue] :=
  (reveal_reads_in_bounds (fireRun (revealInit [Color.red, Color.blue]) 0)
    (Reach.step_fire _ 0 (Reach.step_activate _ [Color.red, Color.blue] 1 0 Reach.init))
    [Color.red, Color.blue]).2.2

/-- Witness for C6: a click during the reveal is a silent no-op, and a
click in the input phase produces the full accept effect list. -/
theorem color_click_guard_witness :
    (handleColorClick ⟨false, true, false⟩ Color.red = [] ∨
      handleColorClick ⟨false, true, false⟩ Color.red =
        [BoardEffect.playColorClick Color.red, BoardEffect.vibrate 50,
         BoardEffect.setActive (some Color.red), BoardEffect.scheduleClearActive 150,
         BoardEffect.onColorClick Color.red]) ∧
    (handleColorClick ⟨false, false, true⟩ Color.blue ≠ [] ↔
      ((false : Bool) = false ∧ (false : Bool) = false ∧ (true : Bool) = true)) :=
  ⟨(color_click_guard ⟨false, true, false⟩ Color.red).1,
   (color_click_guard ⟨false, false, true⟩ Color.blue).2⟩

/-- Witness for C8: removing `p1` from a two-player roster keeps exactly
`p2` and the rest of the state. -/
theorem player_left_removes_only_that_id_witness :
    (handlePlayerLeft
        { initWState with players := [⟨"p1", "Ann", "1", true⟩, ⟨"p2", "Bob", "2", false⟩] }
        "p1").roomStatus =
      ({ initWState with
          players := [⟨"p1", "Ann", "1", true⟩, ⟨"p2", "Bob", "2", false⟩] } : WState).roomStatus ∧
    (handlePlayerLeft
        { initWState with players := [⟨"p1", "Ann", "1", true⟩, ⟨"p2", "Bob", "2", false⟩] }
        "p1").players.Sublist
      [⟨"p1", "Ann", "1", true⟩, ⟨"p2", "Bob", "2", false⟩] :=
  ⟨(player_left_removes_only_that_id _ "p1").2.2.1,
   (player_left_removes_only_that_id
     { initWState with players := [⟨"p1", "Ann", "1", true⟩, ⟨"p2", "Bob", "2", false⟩] }
     "p1").2.1⟩

/-- Witness for C10: a lowercase typed code reaches the join request
uppercased. -/
theorem join_code_uppercase_witness :
    ∃ src, joinRequestCode (runEntry [EntryEv.typeCode ['a', 'b', 'c']]) =
        src.map Char.toUpper ∧
      (src = [] ∨ EntryEv.typeCode src ∈ [EntryEv.typeCode ['a', 'b', 'c']] ∨
        EntryEv.inviteParam src ∈ [EntryEv.typeCode ['a', 'b', 'c']]) :=
  (join_code_uppercase [EntryEv.typeCode ['a', 'b', 'c']] initEntry [] []).2.2.2
